import Mathlib

/-!
Verification of the keyboard-navigation line cursor
(`demos/keyboard_nav/line_cursor.js`) and the node announcer
(`core/keyboard_nav/speaker.js`) of the Blockly repository.

The AST node collaborator is external to the repository; following the
specification's data model it is embedded as a finite rooted ordered tree.
A node is identified by its position: the list of child indices from the
root.  The structural navigation methods `in` (first child), `out`
(parent), `next` (following sibling) and `prev` (preceding sibling) are
defined on positions.  The cursor functions are translated from the source
one by one; the unbounded JavaScript recursions are embedded with explicit
fuel, and termination is proved as a theorem (enough fuel always exists).
-/

namespace Blockly

/-- Node type tags of the AST node abstraction (`Blockly.ASTNode.types`). -/
inductive SType where
  | BLOCK
  | FIELD
  | OUTPUT
  | INPUT
  | NEXT
  | PREVIOUS
  | WORKSPACE
  | STACK
deriving DecidableEq, Repr

/-- Data carried by one AST node, as consulted by the line cursor:
its type tag, and whether its location (a block, for `BLOCK` nodes) has an
output connection (`location.outputConnection !== null`). -/
structure NodeData where
  type : SType
  hasOutputConnection : Bool
deriving DecidableEq, Repr

/-- The AST as a finite rooted ordered tree (spec section 3: the external
node collaborator forms a rooted, ordered tree, read-only for the core). -/
inductive Tree where
  | node (d : NodeData) (children : List Tree)

/-- A position in the tree: the list of child indices from the root. -/
abbrev Pos := List Nat

def Tree.dataOf : Tree → NodeData
  | .node d _ => d

def Tree.childrenOf : Tree → List Tree
  | .node _ ts => ts

/-- Subtree rooted at a position, when the position exists in the tree. -/
def subtreeAt : Tree → Pos → Option Tree
  | t, [] => some t
  | t, i :: p =>
    match (Tree.childrenOf t)[i]? with
    | some c => subtreeAt c p
    | none => none

/-- A position is valid when it denotes a node of the tree. -/
def validPos (t : Tree) (p : Pos) : Prop := (subtreeAt t p).isSome = true

instance (t : Tree) (p : Pos) : Decidable (validPos t p) := by
  unfold validPos; infer_instance

/-- Structural induction for the nested inductive `Tree`. -/
theorem tree_ind (motive : Tree → Prop)
    (ind : ∀ d ts, (∀ c, c ∈ ts → motive c) → motive (Tree.node d ts)) :
    ∀ t, motive t
  | .node d ts => ind d ts (fun c hc =>
      have : sizeOf c < sizeOf (Tree.node d ts) := by
        have h1 := List.sizeOf_lt_of_mem hc
        simp only [Tree.node.sizeOf_spec]
        omega
      tree_ind motive ind c)
termination_by t => sizeOf t

/-- The node's first child (`node.in()`), if any. -/
def astIn (t : Tree) (p : Pos) : Option Pos :=
  match subtreeAt t p with
  | some s =>
    match Tree.childrenOf s with
    | [] => none
    | _ :: _ => some (p ++ [0])
  | none => none

/-- The node's following sibling (`node.next()`), if any. -/
def astNext : Tree → Pos → Option Pos
  | _, [] => none
  | t, [i] => if i + 1 < (Tree.childrenOf t).length then some [i + 1] else none
  | t, i :: j :: q =>
    match (Tree.childrenOf t)[i]? with
    | some c => (astNext c (j :: q)).map (fun r => i :: r)
    | none => none

/-- The node's preceding sibling (`node.prev()`), if any. -/
def astPrev : Tree → Pos → Option Pos
  | _, [] => none
  | _, [i] => if i = 0 then none else some [i - 1]
  | t, i :: j :: q =>
    match (Tree.childrenOf t)[i]? with
    | some c => (astPrev c (j :: q)).map (fun r => i :: r)
    | none => none

/-- The node's parent (`node.out()`), if any. -/
def astOut : Pos → Option Pos
  | [] => none
  | [_] => some []
  | i :: j :: q => (astOut (j :: q)).map (fun r => i :: r)

mutual

/-- All positions of the tree in pre-order: a node first, then the subtrees
of its children left to right. -/
def preorder : Tree → List Pos
  | .node _ ts => [] :: preorderList 0 ts

/-- Positions contributed by a list of subtrees whose first child index
is `j`. -/
def preorderList : Nat → List Tree → List Pos
  | _, [] => []
  | j, c :: cs => ((preorder c).map (fun q => j :: q)) ++ preorderList (j + 1) cs

end

/-- Every traversal in this development finishes within this much fuel. -/
def navFuel (t : Tree) : Nat := (preorder t).length

/-- Elements strictly after the first occurrence of `p`. -/
def afterList : List Pos → Pos → List Pos
  | [], _ => []
  | a :: l, p => if a = p then l else afterList l p

/-- Elements strictly before the first occurrence of `p`. -/
def beforeList : List Pos → Pos → List Pos
  | [], _ => []
  | a :: l, p => if a = p then [] else a :: beforeList l p

theorem subtreeAt_cons (d : NodeData) (ts : List Tree) (i : Nat) (q : Pos) (c : Tree)
    (hc : ts[i]? = some c) :
    subtreeAt (Tree.node d ts) (i :: q) = subtreeAt c q := by
  simp [subtreeAt, Tree.childrenOf, hc]

theorem astIn_cons (d : NodeData) (ts : List Tree) (i : Nat) (q : Pos) (c : Tree)
    (hc : ts[i]? = some c) :
    astIn (Tree.node d ts) (i :: q) = (astIn c q).map (fun r => i :: r) := by
  unfold astIn
  rw [subtreeAt_cons d ts i q c hc]
  cases hs : subtreeAt c q with
  | none => rfl
  | some s =>
    cases hcs : Tree.childrenOf s with
    | nil => simp [hcs]
    | cons a l => simp [hcs]

theorem astNext_cons (d : NodeData) (ts : List Tree) (i j : Nat) (q : Pos) (c : Tree)
    (hc : ts[i]? = some c) :
    astNext (Tree.node d ts) (i :: j :: q) = (astNext c (j :: q)).map (fun r => i :: r) := by
  simp [astNext, Tree.childrenOf, hc]

theorem astPrev_cons (d : NodeData) (ts : List Tree) (i j : Nat) (q : Pos) (c : Tree)
    (hc : ts[i]? = some c) :
    astPrev (Tree.node d ts) (i :: j :: q) = (astPrev c (j :: q)).map (fun r => i :: r) := by
  simp [astPrev, Tree.childrenOf, hc]

theorem astOut_cons (i j : Nat) (q : Pos) :
    astOut (i :: j :: q) = (astOut (j :: q)).map (fun r => i :: r) := rfl

theorem astOut_isSome (i : Nat) (q : Pos) : (astOut (i :: q)).isSome = true := by
  induction q generalizing i with
  | nil => rfl
  | cons j q ih =>
    rw [astOut_cons]
    cases h : astOut (j :: q) with
    | none => have := ih j; rw [h] at this; simp at this
    | some r => simp

theorem astOut_length (p : Pos) (q : Pos) (h : astOut p = some q) :
    q.length < p.length := by
  induction p generalizing q with
  | nil => simp [astOut] at h
  | cons i p ih =>
    cases p with
    | nil => simp [astOut] at h; simp [← h]
    | cons j r =>
      rw [astOut_cons] at h
      cases hv : astOut (j :: r) with
      | none => rw [hv] at h; simp at h
      | some v =>
        rw [hv] at h
        simp at h
        have hlen := ih v hv
        rw [← h]
        simp only [List.length_cons] at hlen ⊢
        omega

theorem preorder_ne_nil (t : Tree) : preorder t ≠ [] := by
  cases t; simp [preorder]

theorem head?_preorder (t : Tree) : (preorder t).head? = some [] := by
  cases t; simp [preorder]

theorem preorderList_cons (j : Nat) (c : Tree) (cs : List Tree) :
    preorderList j (c :: cs) = ((preorder c).map (fun q => j :: q)) ++ preorderList (j + 1) cs := by
  simp [preorderList]

theorem preorderList_head? (j : Nat) (c : Tree) (cs : List Tree) :
    (preorderList j (c :: cs)).head? = some [j] := by
  cases c with
  | node d ts => simp [preorderList, preorder]

/-- Membership in the block of positions contributed by the subtree list. -/
theorem mem_preorderList_of (ts : List Tree) (j i : Nat) (q : Pos) (c : Tree)
    (hc : ts[i]? = some c) (hq : q ∈ preorder c) :
    (j + i) :: q ∈ preorderList j ts := by
  induction ts generalizing i j with
  | nil => simp at hc
  | cons c0 cs ih =>
    rw [preorderList_cons]
    cases i with
    | zero =>
      simp at hc
      subst hc
      exact List.mem_append_left _ (by simpa using List.mem_map_of_mem (fun q => j :: q) hq)
    | succ i' =>
      simp at hc
      have := ih (j + 1) i' hc
      refine List.mem_append_right _ ?_
      have harith : j + (i' + 1) = (j + 1) + i' := by omega
      rw [harith]
      exact this

/-- Decomposition of membership in the positions of a subtree list. -/
theorem of_mem_preorderList (ts : List Tree) (j : Nat) (r : Pos)
    (hr : r ∈ preorderList j ts) :
    ∃ i q c, r = (j + i) :: q ∧ ts[i]? = some c ∧ q ∈ preorder c := by
  induction ts generalizing j with
  | nil => simp [preorderList] at hr
  | cons c0 cs ih =>
    rw [preorderList_cons] at hr
    rcases List.mem_append.1 hr with h | h
    · rcases List.mem_map.1 h with ⟨q, hq, hqr⟩
      exact ⟨0, q, c0, by simp [← hqr], by simp, hq⟩
    · rcases ih (j + 1) h with ⟨i, q, c, hrq, hc, hq⟩
      refine ⟨i + 1, q, c, ?_, by simpa using hc, hq⟩
      rw [hrq]; simp; omega

theorem mem_preorder_of_validPos (t : Tree) (p : Pos) (h : validPos t p) :
    p ∈ preorder t := by
  induction p generalizing t with
  | nil => cases t with | node d ts => simp [preorder]
  | cons i q ih =>
    cases t with
    | node d ts =>
      unfold validPos at h
      cases hc : ts[i]? with
      | none => simp [subtreeAt, Tree.childrenOf, hc] at h
      | some c =>
        rw [subtreeAt_cons d ts i q c hc] at h
        have hq := ih c h
        have hmem := mem_preorderList_of ts 0 i q c hc hq
        simp [preorder]
        simpa using hmem

theorem validPos_of_mem_preorder (t : Tree) : ∀ (p : Pos), p ∈ preorder t → validPos t p := by
  induction t using tree_ind with
  | ind d ts ih =>
    intro p h
    simp only [preorder, List.mem_cons] at h
    rcases h with h | h
    · subst h; simp [validPos, subtreeAt]
    · rcases of_mem_preorderList ts 0 p h with ⟨i, q, c, hrq, hc, hq⟩
      subst hrq
      have hcmem : c ∈ ts := List.getElem?_mem hc
      have hvc := ih c hcmem q hq
      unfold validPos at *
      rw [subtreeAt_cons d ts (0 + i) q c (by simpa using hc)]
      exact hvc

theorem head_shape_preorderList (ts : List Tree) (j : Nat) (r : Pos)
    (hr : r ∈ preorderList j ts) : ∃ i q, r = i :: q ∧ j ≤ i ∧ i < j + ts.length := by
  rcases of_mem_preorderList ts j r hr with ⟨i, q, c, hrq, hc, _⟩
  have hlt : i < ts.length := by
    by_contra hge
    rw [List.getElem?_eq_none (by omega)] at hc
    simp at hc
  exact ⟨j + i, q, hrq, by omega, by omega⟩

theorem nodup_preorderList (ts : List Tree) (h : ∀ c ∈ ts, (preorder c).Nodup) :
    ∀ j, (preorderList j ts).Nodup := by
  induction ts with
  | nil => intro j; simp [preorderList]
  | cons c0 cs ih =>
    intro j
    rw [preorderList_cons, List.nodup_append]
    refine ⟨?_, ?_, ?_⟩
    · exact (h c0 (by simp)).map (fun a b hab => by simpa using hab)
    · exact ih (fun c hcc => h c (by simp [hcc])) (j + 1)
    · intro a ha hb
      rcases List.mem_map.1 ha with ⟨q, _, rfl⟩
      rcases head_shape_preorderList cs (j + 1) _ hb with ⟨i, q', heq, hji, _⟩
      have : j = i := by injection heq
      omega

theorem nodup_preorder (t : Tree) : (preorder t).Nodup := by
  induction t using tree_ind with
  | ind d ts ih =>
    simp only [preorder]
    rw [List.nodup_cons]
    constructor
    · intro hmem
      rcases head_shape_preorderList ts 0 [] hmem with ⟨i, q, heq, _, _⟩
      simp at heq
    · exact nodup_preorderList ts ih 0

theorem afterList_map_append (l rest : List Pos) (j : Nat) (q : Pos) (hq : q ∈ l) :
    afterList ((l.map (fun r => j :: r)) ++ rest) (j :: q) =
      (afterList l q).map (fun r => j :: r) ++ rest := by
  induction l with
  | nil => simp at hq
  | cons a l ih =>
    by_cases haq : a = q
    · subst haq
      simp [afterList]
    · have hmem : q ∈ l := by
        rcases List.mem_cons.1 hq with h | h
        · exact absurd h.symm haq
        · exact h
      simp only [List.map_cons, List.cons_append, afterList,
        if_neg (show ¬(j :: a = j :: q) by simp [haq]), if_neg haq]
      exact ih hmem

theorem beforeList_map_append (l rest : List Pos) (j : Nat) (q : Pos) (hq : q ∈ l) :
    beforeList ((l.map (fun r => j :: r)) ++ rest) (j :: q) =
      (beforeList l q).map (fun r => j :: r) := by
  induction l with
  | nil => simp at hq
  | cons a l ih =>
    by_cases haq : a = q
    · subst haq
      simp [beforeList]
    · have hmem : q ∈ l := by
        rcases List.mem_cons.1 hq with h | h
        · exact absurd h.symm haq
        · exact h
      simp only [List.map_cons, List.cons_append, beforeList,
        if_neg (show ¬(j :: a = j :: q) by simp [haq]), if_neg haq, List.append_eq]
      rw [ih hmem]

theorem afterList_append_of_not_mem (l1 rest : List Pos) (p : Pos)
    (h : ∀ x ∈ l1, x ≠ p) :
    afterList (l1 ++ rest) p = afterList rest p := by
  induction l1 with
  | nil => simp
  | cons a l ih =>
    simp only [List.cons_append, afterList, if_neg (h a (by simp))]
    exact ih (fun x hx => h x (by simp [hx]))

theorem beforeList_append_of_not_mem (l1 rest : List Pos) (p : Pos)
    (h : ∀ x ∈ l1, x ≠ p) :
    beforeList (l1 ++ rest) p = l1 ++ beforeList rest p := by
  induction l1 with
  | nil => simp
  | cons a l ih =>
    simp only [List.cons_append, beforeList, if_neg (h a (by simp)), List.append_eq]
    rw [ih (fun x hx => h x (by simp [hx]))]

theorem afterList_of_split (l1 l2 : List Pos) (p : Pos) (h : p ∉ l1) :
    afterList (l1 ++ p :: l2) p = l2 := by
  rw [afterList_append_of_not_mem l1 _ p (fun x hx he => h (he ▸ hx))]
  simp [afterList]

theorem beforeList_of_split (l1 l2 : List Pos) (p : Pos) (h : p ∉ l1) :
    beforeList (l1 ++ p :: l2) p = l1 := by
  rw [beforeList_append_of_not_mem l1 _ p (fun x hx he => h (he ▸ hx))]
  simp [beforeList]

theorem beforeList_append_afterList (l : List Pos) (p : Pos) (h : p ∈ l) :
    l = beforeList l p ++ p :: afterList l p := by
  induction l with
  | nil => simp at h
  | cons a l ih =>
    by_cases hap : a = p
    · subst hap; simp [beforeList, afterList]
    · have hmem : p ∈ l := by
        rcases List.mem_cons.1 h with h' | h'
        · exact absurd h'.symm hap
        · exact h'
      simp only [beforeList, afterList, if_neg hap, List.cons_append, List.cons.injEq]
      exact ⟨trivial, ih hmem⟩

theorem not_mem_of_nodup_split (l1 l2 : List Pos) (p : Pos)
    (h : (l1 ++ p :: l2).Nodup) : p ∉ l1 ∧ p ∉ l2 := by
  rw [List.nodup_append] at h
  rcases h with ⟨h1, h2, hd⟩
  rw [List.nodup_cons] at h2
  exact ⟨fun hm => hd hm (by simp), h2.1⟩

/-- Translation of `LineCursor.prototype.findSiblingOrParent_`: from the
given node find either the next sibling or, recursively, an ancestor's
next sibling; null propagates. -/
def findSiblingOrParent (t : Tree) : Option Pos → Option Pos
  | none => none
  | some p =>
    match astNext t p with
    | some n => some n
    | none => findSiblingOrParent t (astOut p)
termination_by o => o.elim 0 (fun p => p.length + 1)
decreasing_by
  cases hp : astOut p with
  | none => simp [hp]
  | some q =>
    have := astOut_length p q hp
    simp [hp]
    omega

theorem findSiblingOrParent_none (t : Tree) : findSiblingOrParent t none = none := by
  rw [findSiblingOrParent]

theorem findSiblingOrParent_some (t : Tree) (p : Pos) :
    findSiblingOrParent t (some p) =
      match astNext t p with
      | some n => some n
      | none => findSiblingOrParent t (astOut p) := by
  rw [findSiblingOrParent]

theorem findSiblingOrParent_root (t : Tree) : findSiblingOrParent t (some []) = none := by
  rw [findSiblingOrParent_some]
  simp [astNext, astOut, findSiblingOrParent_none]

theorem findSiblingOrParent_single (d : NodeData) (ts : List Tree) (i : Nat) :
    findSiblingOrParent (Tree.node d ts) (some [i]) =
      if i + 1 < ts.length then some [i + 1] else none := by
  rw [findSiblingOrParent_some]
  by_cases hlt : i + 1 < ts.length
  · simp [astNext, Tree.childrenOf, hlt]
  · simp [astNext, Tree.childrenOf, hlt, astOut, findSiblingOrParent_root]

theorem findSiblingOrParent_cons (d : NodeData) (ts : List Tree) (i : Nat) (c : Tree)
    (hc : ts[i]? = some c) :
    ∀ q : Pos, findSiblingOrParent (Tree.node d ts) (some (i :: q)) =
      (match findSiblingOrParent c (some q) with
       | some r => some (i :: r)
       | none => if i + 1 < ts.length then some [i + 1] else none) := by
  have key : ∀ (n : Nat) (q : Pos), q.length ≤ n →
      findSiblingOrParent (Tree.node d ts) (some (i :: q)) =
        (match findSiblingOrParent c (some q) with
         | some r => some (i :: r)
         | none => if i + 1 < ts.length then some [i + 1] else none) := by
    intro n
    induction n with
    | zero =>
      intro q hq
      have : q = [] := by cases q with
        | nil => rfl
        | cons a l => simp at hq
      subst this
      rw [findSiblingOrParent_single, findSiblingOrParent_root]
    | succ n ihn =>
      intro q hq
      cases q with
      | nil => rw [findSiblingOrParent_single, findSiblingOrParent_root]
      | cons j q' =>
        rw [findSiblingOrParent_some, astNext_cons d ts i j q' c hc]
        rw [findSiblingOrParent_some (p := j :: q')]
        cases hnx : astNext c (j :: q') with
        | some m => simp
        | none =>
          simp only [Option.map_none']
          cases hout : astOut (j :: q') with
          | none => have := astOut_isSome j q'; rw [hout] at this; simp at this
          | some q'' =>
            rw [astOut_cons, hout]
            simp only [Option.map_some']
            have hlen : q''.length ≤ n := by
              have h1 := astOut_length (j :: q') q'' hout
              simp only [List.length_cons] at h1 hq
              omega
            exact ihn q'' hlen
  intro q
  exact key q.length q le_rfl

/-- One raw pre-order step exactly as `getNextNode_` computes it: the first
child if present, else the next sibling, else an ancestor's next sibling
found by walking upward. -/
def preSucc (t : Tree) (p : Pos) : Option Pos :=
  match astIn t p with
  | some m => some m
  | none =>
    match astNext t p with
    | some m => some m
    | none => findSiblingOrParent t (astOut p)

theorem preSucc_cons (d : NodeData) (ts : List Tree) (i : Nat) (q : Pos) (c : Tree)
    (hc : ts[i]? = some c) :
    preSucc (Tree.node d ts) (i :: q) =
      match preSucc c q with
      | some r => some (i :: r)
      | none => if i + 1 < ts.length then some [i + 1] else none := by
  unfold preSucc
  rw [astIn_cons d ts i q c hc]
  cases hin : astIn c q with
  | some m => simp
  | none =>
    simp only [Option.map_none']
    cases q with
    | nil =>
      have hnx : astNext c ([] : Pos) = none := rfl
      rw [hnx]
      have hout : astOut ([] : Pos) = none := rfl
      rw [hout, findSiblingOrParent_none]
      show (match astNext (Tree.node d ts) [i] with
        | some m => some m
        | none => findSiblingOrParent (Tree.node d ts) (astOut [i])) = _
      by_cases hlt : i + 1 < ts.length
      · simp [astNext, Tree.childrenOf, hlt]
      · simp [astNext, Tree.childrenOf, hlt, astOut, findSiblingOrParent_root]
    | cons j q' =>
      rw [astNext_cons d ts i j q' c hc]
      cases hnx : astNext c (j :: q') with
      | some n => simp
      | none =>
        simp only [Option.map_none']
        cases hout : astOut (j :: q') with
        | none => have := astOut_isSome j q'; rw [hout] at this; simp at this
        | some q'' =>
          rw [astOut_cons, hout]
          simp only [Option.map_some']
          exact findSiblingOrParent_cons d ts i c hc q''

theorem afterList_head?_preorderList (ts : List Tree) (j i : Nat) (q : Pos) (c : Tree)
    (hc : ts[i]? = some c) (hq : q ∈ preorder c) :
    (afterList (preorderList j ts) ((j + i) :: q)).head? =
      match (afterList (preorder c) q).head? with
      | some r => some ((j + i) :: r)
      | none => if i + 1 < ts.length then some [j + (i + 1)] else none := by
  induction ts generalizing i j with
  | nil => simp at hc
  | cons c0 cs ih =>
    rw [preorderList_cons]
    cases i with
    | zero =>
      obtain rfl : c0 = c := by simpa using hc
      simp only [Nat.add_zero]
      rw [afterList_map_append _ _ j q hq]
      cases hA : afterList (preorder c0) q with
      | nil =>
        simp only [List.map_nil, List.nil_append]
        cases cs with
        | nil => simp [preorderList]
        | cons c1 cs' =>
          rw [preorderList_head?]
          simp
      | cons r rest' => simp
    | succ i' =>
      have hskip : ∀ x ∈ (preorder c0).map (fun r => j :: r), x ≠ (j + (i' + 1)) :: q := by
        intro x hx
        rcases List.mem_map.1 hx with ⟨y, _, rfl⟩
        intro he
        have : j = j + (i' + 1) := by injection he
        omega
      rw [afterList_append_of_not_mem _ _ _ hskip]
      have harith : j + (i' + 1) = (j + 1) + i' := by omega
      rw [harith, ih (j + 1) i' (by simpa using hc)]
      have e2 : j + 1 + (i' + 1) = j + (i' + 1 + 1) := by omega
      have e3 : ((j + 1) + i') = j + (i' + 1) := by omega
      rw [e2, e3]
      cases (afterList (preorder c) q).head? with
      | some r => rfl
      | none =>
        by_cases hlt : i' + 1 < cs.length
        · rw [if_pos hlt, if_pos (show i' + 1 + 1 < (c0 :: cs).length by
            simp only [List.length_cons]; omega)]
        · rw [if_neg hlt, if_neg (show ¬(i' + 1 + 1 < (c0 :: cs).length) by
            simp only [List.length_cons]; omega)]

/-- The raw step of the forward traversal computes exactly the immediate
pre-order successor: the element following `p` in the pre-order listing. -/
theorem preSucc_eq_afterList_head? (t : Tree) :
    ∀ p : Pos, validPos t p → preSucc t p = (afterList (preorder t) p).head? := by
  induction t using tree_ind with
  | ind d ts ih =>
    intro p hv
    cases p with
    | nil =>
      have hAL : afterList (preorder (Tree.node d ts)) [] = preorderList 0 ts := by
        simp [preorder, afterList]
      rw [hAL]
      cases hts : ts with
      | nil =>
        show preSucc (Tree.node d []) [] = _
        simp [preSucc, astIn, subtreeAt, Tree.childrenOf, astNext, astOut,
          findSiblingOrParent_none, preorderList]
      | cons c0 cs =>
        rw [preorderList_head?]
        simp [preSucc, astIn, subtreeAt, Tree.childrenOf]
    | cons i q =>
      unfold validPos at hv
      cases hc : ts[i]? with
      | none => simp [subtreeAt, Tree.childrenOf, hc] at hv
      | some c =>
        rw [subtreeAt_cons d ts i q c hc] at hv
        have hcmem : c ∈ ts := List.getElem?_mem hc
        have hrec := ih c hcmem q hv
        have hq : q ∈ preorder c := mem_preorder_of_validPos c q hv
        rw [preSucc_cons d ts i q c hc]
        have hstep : afterList (preorder (Tree.node d ts)) (i :: q) =
            afterList (preorderList 0 ts) (i :: q) := by
          simp [preorder, afterList]
        rw [hstep]
        have hAL := afterList_head?_preorderList ts 0 i q c hc hq
        simp only [Nat.zero_add] at hAL
        rw [hAL, ← hrec]

theorem astNext_cons_ne_nil (d : NodeData) (ts : List Tree) (a : Nat) (p : Pos) (c : Tree)
    (hc : ts[a]? = some c) (hp : p ≠ []) :
    astNext (Tree.node d ts) (a :: p) = (astNext c p).map (fun r => a :: r) := by
  cases p with
  | nil => exact absurd rfl hp
  | cons j q => exact astNext_cons d ts a j q c hc

theorem astPrev_cons_ne_nil (d : NodeData) (ts : List Tree) (a : Nat) (p : Pos) (c : Tree)
    (hc : ts[a]? = some c) (hp : p ≠ []) :
    astPrev (Tree.node d ts) (a :: p) = (astPrev c p).map (fun r => a :: r) := by
  cases p with
  | nil => exact absurd rfl hp
  | cons j q => exact astPrev_cons d ts a j q c hc

theorem subtreeAt_snoc (t : Tree) (q : Pos) (i : Nat) :
    subtreeAt t (q ++ [i]) = (subtreeAt t q).bind (fun s => (Tree.childrenOf s)[i]?) := by
  induction q generalizing t with
  | nil =>
    cases t with
    | node d ts =>
      simp only [List.nil_append, subtreeAt, Option.bind]
      cases hc : ts[i]? with
      | none => simp [Tree.childrenOf, hc]
      | some c => simp [Tree.childrenOf, hc, subtreeAt]
  | cons a q ih =>
    cases t with
    | node d ts =>
      cases hc : ts[a]? with
      | none => simp [subtreeAt, Tree.childrenOf, hc]
      | some c =>
        rw [List.cons_append, subtreeAt_cons d ts a (q ++ [i]) c hc,
          subtreeAt_cons d ts a q c hc]
        exact ih c

theorem astOut_snoc (q : Pos) (i : Nat) : astOut (q ++ [i]) = some q := by
  induction q with
  | nil => rfl
  | cons a q ih =>
    cases q with
    | nil => rfl
    | cons b r =>
      have h1 : (a :: b :: r) ++ [i] = a :: b :: (r ++ [i]) := by simp
      have h2 : (b :: r) ++ [i] = b :: (r ++ [i]) := by simp
      rw [h1, astOut_cons, ← h2, ih]
      rfl

theorem astNext_snoc (t : Tree) (q : Pos) (i : Nat) (s : Tree)
    (hs : subtreeAt t q = some s) :
    astNext t (q ++ [i]) =
      if i + 1 < (Tree.childrenOf s).length then some (q ++ [i + 1]) else none := by
  induction q generalizing t with
  | nil =>
    simp only [subtreeAt] at hs
    cases hs
    cases s with
    | node d ts => simp [astNext, Tree.childrenOf]
  | cons a q ih =>
    cases t with
    | node d ts =>
      cases hc : ts[a]? with
      | none => simp [subtreeAt, Tree.childrenOf, hc] at hs
      | some c =>
        rw [subtreeAt_cons d ts a q c hc] at hs
        rw [List.cons_append, astNext_cons_ne_nil d ts a (q ++ [i]) c hc (by simp)]
        rw [ih c hs]
        by_cases hlt : i + 1 < (Tree.childrenOf s).length
        · simp [hlt]
        · simp [hlt]

theorem astPrev_snoc (t : Tree) (q : Pos) (i : Nat) (s : Tree)
    (hs : subtreeAt t q = some s) :
    astPrev t (q ++ [i]) = if i = 0 then none else some (q ++ [i - 1]) := by
  induction q generalizing t with
  | nil => simp [astPrev]
  | cons a q ih =>
    cases t with
    | node d ts =>
      cases hc : ts[a]? with
      | none => simp [subtreeAt, Tree.childrenOf, hc] at hs
      | some c =>
        rw [subtreeAt_cons d ts a q c hc] at hs
        rw [List.cons_append, astPrev_cons_ne_nil d ts a (q ++ [i]) c hc (by simp)]
        rw [ih c hs]
        by_cases h0 : i = 0
        · simp [h0]
        · simp [h0]

/-- Path from a node down to its right-most deepest descendant: repeatedly
descend to the last child. -/
def lastPath : Tree → Pos
  | .node _ [] => []
  | .node _ (c :: cs) => cs.length :: lastPath ((c :: cs).getLast (by simp))
termination_by t => sizeOf t
decreasing_by
  have h1 := List.sizeOf_lt_of_mem (List.getLast_mem (l := c :: cs) (by simp))
  simp only [Tree.node.sizeOf_spec]
  omega

theorem length_preorderList_ge (ts : List Tree) (j : Nat) :
    ts.length ≤ (preorderList j ts).length := by
  induction ts generalizing j with
  | nil => simp [preorderList]
  | cons c cs ih =>
    rw [preorderList_cons]
    have h1 : 1 ≤ (preorder c).length := by
      have := preorder_ne_nil c
      cases hp : preorder c with
      | nil => exact absurd hp this
      | cons a l => simp
    have := ih (j + 1)
    simp only [List.length_append, List.length_map, List.length_cons]
    omega

theorem length_preorder_mem_le (ts : List Tree) (c : Tree) (hc : c ∈ ts) (j : Nat) :
    (preorder c).length ≤ (preorderList j ts).length := by
  induction ts generalizing j with
  | nil => simp at hc
  | cons c0 cs ih =>
    rw [preorderList_cons]
    simp only [List.length_append, List.length_map]
    rcases List.mem_cons.1 hc with h | h
    · subst h; omega
    · have := ih h (j + 1)
      omega

theorem length_preorder_subtree_le (t : Tree) (p : Pos) (s : Tree)
    (hs : subtreeAt t p = some s) :
    (preorder s).length ≤ (preorder t).length := by
  induction p generalizing t with
  | nil => simp only [subtreeAt] at hs; cases hs; exact le_rfl
  | cons i q ih =>
    cases t with
    | node d ts =>
      cases hc : ts[i]? with
      | none => simp [subtreeAt, Tree.childrenOf, hc] at hs
      | some c =>
        rw [subtreeAt_cons d ts i q c hc] at hs
        have h1 := ih c hs
        have h2 := length_preorder_mem_le ts c (List.getElem?_mem hc) 0
        have h3 : (preorder (Tree.node d ts)).length = (preorderList 0 ts).length + 1 := by
          simp [preorder]
        omega

theorem option_some_or {A : Type} (a : A) (o : Option A) : (some a).or o = some a := rfl

theorem getLast?_preorderList (ts : List Tree) (hne : ts ≠ [])
    (h : ∀ c ∈ ts, (preorder c).getLast? = some (lastPath c)) (j : Nat) :
    (preorderList j ts).getLast? =
      some ((j + (ts.length - 1)) :: lastPath (ts.getLast hne)) := by
  induction ts generalizing j with
  | nil => exact absurd rfl hne
  | cons c0 cs ih =>
    rw [preorderList_cons, List.getLast?_append]
    cases cs with
    | nil =>
      show ((preorderList (j + 1) []).getLast?.or _) = _
      rw [List.getLast?_map, h c0 (by simp)]
      simp [preorderList, List.getLast]
    | cons c1 cs' =>
      have hne' : c1 :: cs' ≠ [] := by simp
      rw [ih hne' (fun c hc => h c (by simp [hc])) (j + 1), option_some_or]
      have e1 : (j + 1) + ((c1 :: cs').length - 1) = j + ((c0 :: c1 :: cs').length - 1) := by
        simp only [List.length_cons]
        omega
      rw [e1]
      have e2 : (c0 :: c1 :: cs').getLast (by simp) = (c1 :: cs').getLast hne' :=
        List.getLast_cons hne'
      rw [← e2]

theorem getLast?_preorder (t : Tree) : (preorder t).getLast? = some (lastPath t) := by
  induction t using tree_ind with
  | ind d ts ih =>
    cases ts with
    | nil => simp [preorder, preorderList, lastPath]
    | cons c cs =>
      have h1 : preorder (Tree.node d (c :: cs)) = [([] : Pos)] ++ preorderList 0 (c :: cs) := by
        simp [preorder]
      rw [h1, List.getLast?_append, getLast?_preorderList (c :: cs) (by simp) ih 0,
        option_some_or, lastPath]
      simp

/-- Translation of the while loop in `getRightMostChild_`:
`while (newNode.next()) newNode = newNode.next()`, with fuel. -/
def lastSibLoopF (t : Tree) : Nat → Pos → Option Pos
  | 0, _ => none
  | f + 1, p =>
    match astNext t p with
    | none => some p
    | some n => lastSibLoopF t f n

/-- Translation of `LineCursor.prototype.getRightMostChild_`: if the node
has no first child return it, else move to the first child, follow `next`
to the last sibling, and recurse; fuel models the unbounded recursion. -/
def getRightMostChildF (t : Tree) : Nat → Pos → Option Pos
  | 0, _ => none
  | f + 1, p =>
    match astIn t p with
    | none => some p
    | some c =>
      match lastSibLoopF t (navFuel t) c with
      | none => none
      | some m => getRightMostChildF t f m

theorem lastSibLoopF_char (t : Tree) (q : Pos) (s : Tree) (hs : subtreeAt t q = some s) :
    ∀ (f i : Nat), i < (Tree.childrenOf s).length →
      (Tree.childrenOf s).length - i ≤ f →
      lastSibLoopF t f (q ++ [i]) = some (q ++ [(Tree.childrenOf s).length - 1]) := by
  intro f
  induction f with
  | zero => intro i hi hf; omega
  | succ f ih =>
    intro i hi hf
    have hstep : lastSibLoopF t (f + 1) (q ++ [i]) =
        match astNext t (q ++ [i]) with
        | none => some (q ++ [i])
        | some n => lastSibLoopF t f n := rfl
    rw [hstep, astNext_snoc t q i s hs]
    by_cases hlt : i + 1 < (Tree.childrenOf s).length
    · rw [if_pos hlt]
      exact ih (i + 1) hlt (by omega)
    · rw [if_neg hlt]
      have he : i = (Tree.childrenOf s).length - 1 := by omega
      rw [he]

theorem getRightMostChildF_char (t : Tree) :
    ∀ (s : Tree), (∀ (p : Pos) (f : Nat), subtreeAt t p = some s →
      (preorder s).length ≤ f →
      getRightMostChildF t f p = some (p ++ lastPath s)) := by
  intro s
  induction s using tree_ind with
  | ind d' ts' ih =>
    intro p f hs hf
    have hpos : 1 ≤ (preorder (Tree.node d' ts')).length := by simp [preorder]
    cases f with
    | zero => omega
    | succ f =>
      have hstep : getRightMostChildF t (f + 1) p =
          match astIn t p with
          | none => some p
          | some c =>
            match lastSibLoopF t (navFuel t) c with
            | none => none
            | some m => getRightMostChildF t f m := rfl
      rw [hstep]
      cases ts' with
      | nil =>
        have hin : astIn t p = none := by simp [astIn, hs, Tree.childrenOf]
        rw [hin, lastPath]
        simp
      | cons c0 cs0 =>
        have hin : astIn t p = some (p ++ [0]) := by simp [astIn, hs, Tree.childrenOf]
        rw [hin]
        have hsub : (preorder (Tree.node d' (c0 :: cs0))).length ≤ navFuel t :=
          length_preorder_subtree_le t p _ hs
        have hchild : (c0 :: cs0).length ≤ (preorderList 0 (c0 :: cs0)).length :=
          length_preorderList_ge _ 0
        have hlenpre : (preorder (Tree.node d' (c0 :: cs0))).length =
            (preorderList 0 (c0 :: cs0)).length + 1 := by simp [preorder]
        have hbound : (Tree.childrenOf (Tree.node d' (c0 :: cs0))).length - 0 ≤ navFuel t := by
          simp only [Tree.childrenOf]
          omega
        show (match lastSibLoopF t (navFuel t) (p ++ [0]) with
          | none => none
          | some m => getRightMostChildF t f m) = _
        have hidx : (Tree.childrenOf (Tree.node d' (c0 :: cs0))).length - 1 = cs0.length := by
          simp [Tree.childrenOf]
        rw [lastSibLoopF_char t p (Tree.node d' (c0 :: cs0)) hs (navFuel t) 0
          (by simp [Tree.childrenOf]) hbound, hidx]
        have hglast : (c0 :: cs0)[cs0.length]? = some ((c0 :: cs0).getLast (by simp)) := by
          rw [List.getElem?_eq_getElem (by simp), List.getLast_eq_getElem]
          simp
        have hsub2 : subtreeAt t (p ++ [cs0.length]) = some ((c0 :: cs0).getLast (by simp)) := by
          rw [subtreeAt_snoc, hs]
          simpa [Tree.childrenOf] using hglast
        have hmem : (c0 :: cs0).getLast (by simp) ∈ c0 :: cs0 := List.getLast_mem _
        have hfuel : (preorder ((c0 :: cs0).getLast (by simp))).length ≤ f := by
          have := length_preorder_mem_le (c0 :: cs0) _ hmem 0
          omega
        show getRightMostChildF t f (p ++ [cs0.length]) = _
        rw [ih _ hmem (p ++ [cs0.length]) f hsub2 hfuel, lastPath]
        simp

/-- One raw reverse step exactly as `getPreviousNode_` computes it: the
right-most deepest child of the preceding sibling if one exists, else the
parent. -/
def prePred (t : Tree) (p : Pos) : Option Pos :=
  match astPrev t p with
  | some m => getRightMostChildF t (navFuel t) m
  | none => astOut p

theorem getElem?_isSome_iff {ts : List Tree} {i : Nat} : ts[i]?.isSome ↔ i < ts.length := by
  constructor
  · intro h
    by_contra hge
    rw [List.getElem?_eq_none (by omega)] at h
    simp at h
  · intro h
    rw [List.getElem?_eq_getElem h]
    rfl

theorem validPos_snoc (t : Tree) (q : Pos) (i : Nat) :
    validPos t (q ++ [i]) ↔
      ∃ s, subtreeAt t q = some s ∧ i < (Tree.childrenOf s).length := by
  unfold validPos
  rw [subtreeAt_snoc]
  cases hq : subtreeAt t q with
  | none => simp
  | some s =>
    simp only [Option.some_bind]
    constructor
    · intro h
      exact ⟨s, rfl, getElem?_isSome_iff.1 h⟩
    · rintro ⟨s', hs', hlt⟩
      cases hs'
      exact getElem?_isSome_iff.2 hlt

theorem astPrev_validPos (t : Tree) (p m : Pos) (hv : validPos t p)
    (h : astPrev t p = some m) : validPos t m := by
  rcases List.eq_nil_or_concat' p with rfl | ⟨q, i, rfl⟩
  · simp [astPrev] at h
  · rcases (validPos_snoc t q i).1 hv with ⟨s, hq, hi⟩
    rw [astPrev_snoc t q i s hq] at h
    by_cases h0 : i = 0
    · rw [if_pos h0] at h; simp at h
    · rw [if_neg h0] at h
      cases h
      exact (validPos_snoc t q (i - 1)).2 ⟨s, hq, by omega⟩

theorem astNext_validPos (t : Tree) (p m : Pos) (hv : validPos t p)
    (h : astNext t p = some m) : validPos t m := by
  rcases List.eq_nil_or_concat' p with rfl | ⟨q, i, rfl⟩
  · simp [astNext] at h
  · rcases (validPos_snoc t q i).1 hv with ⟨s, hq, hi⟩
    rw [astNext_snoc t q i s hq] at h
    by_cases hlt : i + 1 < (Tree.childrenOf s).length
    · rw [if_pos hlt] at h
      cases h
      exact (validPos_snoc t q (i + 1)).2 ⟨s, hq, hlt⟩
    · rw [if_neg hlt] at h; simp at h

theorem prePred_nil (t : Tree) : prePred t [] = none := rfl

theorem prePred_cons (d : NodeData) (ts : List Tree) (i : Nat) (q : Pos) (c : Tree)
    (hc : ts[i]? = some c) (hv : validPos c q) :
    prePred (Tree.node d ts) (i :: q) =
      match prePred c q with
      | some r => some (i :: r)
      | none =>
        if i = 0 then some []
        else (ts[i - 1]?).map (fun c2 => (i - 1) :: lastPath c2) := by
  have hilen : i < ts.length := getElem?_isSome_iff.1 (by rw [hc]; rfl)
  cases q with
  | nil =>
    rw [prePred_nil]
    unfold prePred
    by_cases h0 : i = 0
    · subst h0
      simp [astPrev, astOut]
    · have hprev : astPrev (Tree.node d ts) [i] = some [i - 1] := by
        simp [astPrev, h0]
      rw [hprev]
      have hi1 : i - 1 < ts.length := by omega
      cases hc' : ts[i - 1]? with
      | none => rw [List.getElem?_eq_getElem hi1] at hc'; simp at hc'
      | some c' =>
        have hsub : subtreeAt (Tree.node d ts) [i - 1] = some c' := by
          rw [subtreeAt_cons d ts (i - 1) [] c' hc']
          rfl
        have hfuel : (preorder c').length ≤ navFuel (Tree.node d ts) :=
          length_preorder_subtree_le _ _ _ hsub
        show getRightMostChildF (Tree.node d ts) (navFuel (Tree.node d ts)) [i - 1] = _
        rw [getRightMostChildF_char (Tree.node d ts) c' [i - 1] _ hsub hfuel]
        simp [h0]
  | cons j q' =>
    unfold prePred
    rw [astPrev_cons d ts i j q' c hc]
    cases hpv : astPrev c (j :: q') with
    | some m =>
      simp only [Option.map_some']
      have hvm : validPos c m := astPrev_validPos c (j :: q') m hv hpv
      unfold validPos at hvm
      cases hsm : subtreeAt c m with
      | none => rw [hsm] at hvm; simp at hvm
      | some sm =>
        have hsub : subtreeAt (Tree.node d ts) (i :: m) = some sm := by
          rw [subtreeAt_cons d ts i m c hc]; exact hsm
        have hf1 : (preorder sm).length ≤ navFuel (Tree.node d ts) :=
          length_preorder_subtree_le _ _ _ hsub
        have hf2 : (preorder sm).length ≤ navFuel c :=
          length_preorder_subtree_le _ _ _ hsm
        show getRightMostChildF (Tree.node d ts) (navFuel (Tree.node d ts)) (i :: m) = _
        rw [getRightMostChildF_char (Tree.node d ts) sm (i :: m) _ hsub hf1,
          getRightMostChildF_char c sm m _ hsm hf2]
        rfl
    | none =>
      simp only [Option.map_none']
      show astOut (i :: j :: q') = _
      rw [astOut_cons]
      cases hout : astOut (j :: q') with
      | none => have := astOut_isSome j q'; rw [hout] at this; simp at this
      | some q'' => rfl

theorem beforeList_preorderList (ts : List Tree) (j i : Nat) (q : Pos) (c : Tree)
    (hc : ts[i]? = some c) (hq : q ∈ preorder c) :
    beforeList (preorderList j ts) ((j + i) :: q) =
      preorderList j (ts.take i) ++ (beforeList (preorder c) q).map (fun r => (j + i) :: r) := by
  induction ts generalizing i j with
  | nil => simp at hc
  | cons c0 cs ih =>
    rw [preorderList_cons]
    cases i with
    | zero =>
      obtain rfl : c0 = c := by simpa using hc
      simp only [Nat.add_zero, List.take_zero]
      rw [beforeList_map_append _ _ j q hq]
      simp [preorderList]
    | succ i' =>
      have hskip : ∀ x ∈ (preorder c0).map (fun r => j :: r), x ≠ (j + (i' + 1)) :: q := by
        intro x hx
        rcases List.mem_map.1 hx with ⟨y, _, rfl⟩
        intro he
        have : j = j + (i' + 1) := by injection he
        omega
      rw [beforeList_append_of_not_mem _ _ _ hskip]
      have harith : j + (i' + 1) = (j + 1) + i' := by omega
      rw [harith, ih (j + 1) i' (by simpa using hc)]
      rw [List.take_succ_cons, preorderList_cons]
      simp [List.append_assoc]

/-- The raw step of the reverse traversal computes exactly the immediate
pre-order predecessor: the element preceding `p` in the pre-order listing. -/
theorem prePred_eq_beforeList_getLast? (t : Tree) :
    ∀ p : Pos, validPos t p → prePred t p = (beforeList (preorder t) p).getLast? := by
  induction t using tree_ind with
  | ind d ts ih =>
    intro p hv
    cases p with
    | nil =>
      rw [prePred_nil]
      have hb : beforeList (preorder (Tree.node d ts)) [] = [] := by
        simp [preorder, beforeList]
      rw [hb]
      rfl
    | cons i q =>
      unfold validPos at hv
      cases hc : ts[i]? with
      | none => simp [subtreeAt, Tree.childrenOf, hc] at hv
      | some c =>
        rw [subtreeAt_cons d ts i q c hc] at hv
        have hilen : i < ts.length := getElem?_isSome_iff.1 (by rw [hc]; rfl)
        have hcmem : c ∈ ts := List.getElem?_mem hc
        have hrec := ih c hcmem q hv
        have hq : q ∈ preorder c := mem_preorder_of_validPos c q hv
        rw [prePred_cons d ts i q c hc hv]
        have hbl : beforeList (preorder (Tree.node d ts)) (i :: q) =
            [] :: beforeList (preorderList 0 ts) (i :: q) := by
          simp [preorder, beforeList]
        rw [hbl]
        have hBL := beforeList_preorderList ts 0 i q c hc hq
        simp only [Nat.zero_add] at hBL
        rw [hBL]
        cases hb : beforeList (preorder c) q with
        | cons b bl =>
          rw [hb] at hrec
          rw [List.getLast?_eq_getLast _ (by simp)] at hrec
          rw [hrec]
          have hsplit : (([] : Pos) :: (preorderList 0 (ts.take i) ++
              (b :: bl).map (fun r => i :: r))) =
              ([([] : Pos)] ++ preorderList 0 (ts.take i)) ++
                (b :: bl).map (fun r => i :: r) := by
            simp
          rw [hsplit, List.getLast?_append, List.getLast?_map,
            List.getLast?_eq_getLast _ (by simp : b :: bl ≠ [])]
          rfl
        | nil =>
          rw [hb] at hrec
          simp only [List.getLast?_nil] at hrec
          rw [hrec]
          simp only [List.map_nil, List.append_nil]
          cases i with
          | zero =>
            rw [if_pos rfl]
            simp [preorderList]
          | succ i' =>
            rw [if_neg (by omega)]
            cases hts : ts with
            | nil => subst hts; simp at hilen
            | cons t0 ts' =>
              subst hts
              rw [List.take_succ_cons]
              have htake_ne : t0 :: ts'.take i' ≠ [] := by simp
              rw [show (([] : Pos) :: preorderList 0 (t0 :: ts'.take i')) =
                [([] : Pos)] ++ preorderList 0 (t0 :: ts'.take i') from rfl,
                List.getLast?_append,
                getLast?_preorderList (t0 :: ts'.take i') htake_ne
                  (fun c' _ => getLast?_preorder c') 0, option_some_or]
              have hlen_take : (t0 :: ts'.take i').length = i' + 1 := by
                simp only [List.length_cons, List.length_take]
                have : i' ≤ ts'.length := by
                  simp only [List.length_cons] at hilen
                  omega
                omega
              have hglast : (t0 :: ts'.take i').getLast htake_ne =
                  ((t0 :: ts'.take i').getLast? ).getD t0 := by
                rw [List.getLast?_eq_getLast _ htake_ne]
                rfl
              have hgl2 : (t0 :: ts'.take i').getLast? = (t0 :: ts')[i']? := by
                rw [List.getLast?_eq_getElem?, hlen_take]
                have : (t0 :: ts'.take i') = (t0 :: ts').take (i' + 1) := by
                  rw [List.take_succ_cons]
                rw [this, List.getElem?_take]
                simp
              cases hc' : (t0 :: ts')[i']? with
              | none =>
                rw [List.getElem?_eq_getElem (by omega : i' < (t0 :: ts').length)] at hc'
                simp at hc'
              | some c' =>
                rw [hc'] at hgl2
                have hgl3 : (t0 :: ts'.take i').getLast htake_ne = c' := by
                  rw [hglast, hgl2]
                  rfl
                rw [hgl3, hlen_take]
                simp only [Nat.add_sub_cancel, Nat.zero_add]
                rw [hc']
                rfl

/-- Translation of `LineCursor.prototype.getNextNode_`, with fuel for the
unbounded recursion.  Result `some r` means the JavaScript call returns
`r` (with `none` for null); result `none` means the fuel ran out. -/
def getNextNodeF (t : Tree) : Nat → (Option Pos → Bool) → Pos → Option (Option Pos)
  | 0, _, _ => none
  | f + 1, isValid, p =>
    let newNode : Option Pos :=
      match astIn t p with
      | some m => some m
      | none => astNext t p
    if isValid newNode then some newNode
    else
      match newNode with
      | some m => getNextNodeF t f isValid m
      | none =>
        let siblingOrParent := findSiblingOrParent t (astOut p)
        if isValid siblingOrParent then some siblingOrParent
        else
          match siblingOrParent with
          | some m => getNextNodeF t f isValid m
          | none => some none

/-- Translation of `LineCursor.prototype.getPreviousNode_`, with fuel. -/
def getPreviousNodeF (t : Tree) : Nat → (Option Pos → Bool) → Pos → Option (Option Pos)
  | 0, _, _ => none
  | f + 1, isValid, p =>
    match (match astPrev t p with
           | some m => (getRightMostChildF t (navFuel t) m).map some
           | none => some (astOut p)) with
    | none => none
    | some newNode =>
      if isValid newNode then some newNode
      else
        match newNode with
        | some m => getPreviousNodeF t f isValid m
        | none => some none

/-- One unfolding of the forward skip loop: step to the raw pre-order
successor; stop on a valid node, recurse on an invalid one, give up (null)
at the end of the traversal. -/
theorem getNextNodeF_succ (t : Tree) (f : Nat) (v : Option Pos → Bool) (p : Pos)
    (hv : v none = false) :
    getNextNodeF t (f + 1) v p =
      match preSucc t p with
      | none => some none
      | some m => if v (some m) then some (some m) else getNextNodeF t f v m := by
  show (let newNode : Option Pos :=
      match astIn t p with
      | some m => some m
      | none => astNext t p
    if v newNode then some newNode
    else
      match newNode with
      | some m => getNextNodeF t f v m
      | none =>
        let siblingOrParent := findSiblingOrParent t (astOut p)
        if v siblingOrParent then some siblingOrParent
        else
          match siblingOrParent with
          | some m => getNextNodeF t f v m
          | none => some none) = _
  unfold preSucc
  cases hin : astIn t p with
  | some m => simp only []
  | none =>
    simp only []
    cases hnx : astNext t p with
    | some m => simp only []
    | none =>
      rw [hv]
      simp only [Bool.false_eq_true, if_false]
      cases hsp : findSiblingOrParent t (astOut p) with
      | some m => simp only []
      | none => rw [hv]; simp

/-- Data extracted from a successful raw forward step: the target is valid
and the remaining pre-order suffix shrinks by exactly one element. -/
theorem preSucc_some_data (t : Tree) (p m : Pos) (hp : validPos t p)
    (h : preSucc t p = some m) :
    validPos t m ∧ m :: afterList (preorder t) m = afterList (preorder t) p := by
  have h1 := preSucc_eq_afterList_head? t p hp
  rw [h] at h1
  have hmem : p ∈ preorder t := mem_preorder_of_validPos t p hp
  have hnd := nodup_preorder t
  have hsplitL := beforeList_append_afterList (preorder t) p hmem
  have hvalid : ∀ x, x ∈ preorder t → validPos t x := validPos_of_mem_preorder t
  generalize hL : preorder t = L at h1 hmem hnd hsplitL hvalid ⊢
  generalize hB : beforeList L p = B at hsplitL
  generalize hA : afterList L p = A at h1 hsplitL ⊢
  cases A with
  | nil => simp at h1
  | cons m' rest =>
    simp only [List.head?_cons, Option.some.injEq] at h1
    subst h1
    have hfull : L = (B ++ [p]) ++ m :: rest := by
      rw [hsplitL]
      simp
    rw [hfull] at hnd
    refine ⟨hvalid m (by rw [hfull]; simp), ?_⟩
    have hAm : afterList L m = rest := by
      rw [hfull]
      exact afterList_of_split _ _ _ (not_mem_of_nodup_split _ _ _ hnd).1
    rw [hAm]

/-- Data extracted from a successful raw reverse step: the target is valid
and the pre-order prefix shrinks by exactly one element. -/
theorem prePred_some_data (t : Tree) (p m : Pos) (hp : validPos t p)
    (h : prePred t p = some m) :
    validPos t m ∧ beforeList (preorder t) m ++ [m] = beforeList (preorder t) p := by
  have h1 := prePred_eq_beforeList_getLast? t p hp
  rw [h] at h1
  have hmem : p ∈ preorder t := mem_preorder_of_validPos t p hp
  have hnd := nodup_preorder t
  have hsplitL := beforeList_append_afterList (preorder t) p hmem
  have hvalid : ∀ x, x ∈ preorder t → validPos t x := validPos_of_mem_preorder t
  generalize hL : preorder t = L at h1 hmem hnd hsplitL hvalid ⊢
  generalize hA : afterList L p = A at hsplitL
  generalize hB : beforeList L p = B at h1 hsplitL ⊢
  have hbne : B ≠ [] := by
    intro he
    rw [he] at h1
    simp at h1
  have hdecomp : B = B.dropLast ++ [m] := by
    have h2 := List.getLast?_eq_getLast _ hbne
    rw [h2] at h1
    have hm : B.getLast hbne = m := Option.some.inj h1.symm
    rw [← hm]
    exact (List.dropLast_append_getLast hbne).symm
  have hfull : L = B.dropLast ++ m :: (p :: A) := by
    rw [hsplitL]
    nth_rewrite 1 [hdecomp]
    simp
  rw [hfull] at hnd
  refine ⟨hvalid m (by rw [hfull]; simp), ?_⟩
  have hBm : beforeList L m = B.dropLast := by
    rw [hfull]
    exact beforeList_of_split _ _ _ (not_mem_of_nodup_split _ _ _ hnd).1
  rw [hBm, ← hdecomp]

theorem afterList_length_lt (l : List Pos) (p : Pos) (h : p ∈ l) :
    (afterList l p).length < l.length := by
  have h2 := congrArg List.length (beforeList_append_afterList l p h)
  simp only [List.length_append, List.length_cons] at h2
  omega

theorem beforeList_length_lt (l : List Pos) (p : Pos) (h : p ∈ l) :
    (beforeList l p).length < l.length := by
  have h2 := congrArg List.length (beforeList_append_afterList l p h)
  simp only [List.length_append, List.length_cons] at h2
  omega

/-- The forward skip loop finds the first valid node strictly after the
start in pre-order, or reports null at the end of the traversal. -/
theorem getNextNodeF_char (t : Tree) (v : Option Pos → Bool) (hv : v none = false) :
    ∀ (n : Nat) (p : Pos), validPos t p → (afterList (preorder t) p).length < n →
      getNextNodeF t n v p =
        some ((afterList (preorder t) p).find? (fun q => v (some q))) := by
  intro n
  induction n with
  | zero => intro p hp hlen; omega
  | succ f ih =>
    intro p hp hlen
    rw [getNextNodeF_succ t f v p hv]
    cases hP : preSucc t p with
    | none =>
      have h1 := preSucc_eq_afterList_head? t p hp
      rw [hP] at h1
      cases hA : afterList (preorder t) p with
      | nil => simp
      | cons m rest => rw [hA] at h1; simp at h1
    | some m =>
      obtain ⟨hmv, hsplit⟩ := preSucc_some_data t p m hp hP
      show (if v (some m) = true then some (some m) else getNextNodeF t f v m) = _
      by_cases hm : v (some m) = true
      · rw [if_pos hm, ← hsplit,
          @List.find?_cons_of_pos _ (fun q => v (some q)) m _ hm]
      · rw [if_neg hm, ← hsplit,
          @List.find?_cons_of_neg _ (fun q => v (some q)) m _ (by simp [hm])]
        apply ih m hmv
        have h3 := congrArg List.length hsplit
        simp only [List.length_cons] at h3
        omega

/-- One unfolding of the reverse skip loop at a valid position: step to the
raw pre-order predecessor; stop on a valid node, recurse on an invalid
one, give up (null) at the start of the traversal. -/
theorem getPreviousNodeF_succ (t : Tree) (f : Nat) (v : Option Pos → Bool) (p : Pos)
    (hp : validPos t p) :
    getPreviousNodeF t (f + 1) v p =
      if v (prePred t p) then some (prePred t p)
      else
        match prePred t p with
        | some m => getPreviousNodeF t f v m
        | none => some none := by
  show (match (match astPrev t p with
           | some m => (getRightMostChildF t (navFuel t) m).map some
           | none => some (astOut p)) with
    | none => none
    | some newNode =>
      if v newNode then some newNode
      else
        match newNode with
        | some m => getPreviousNodeF t f v m
        | none => some none) = _
  unfold prePred
  cases hpv : astPrev t p with
  | none => simp only []
  | some m' =>
    have hvm : validPos t m' := astPrev_validPos t p m' hp hpv
    unfold validPos at hvm
    cases hsm : subtreeAt t m' with
    | none => rw [hsm] at hvm; simp at hvm
    | some sm =>
      show (match Option.map some (getRightMostChildF t (navFuel t) m') with
        | none => none
        | some newNode =>
          if v newNode = true then some newNode
          else
            match newNode with
            | some m => getPreviousNodeF t f v m
            | none => some none) =
        if v (getRightMostChildF t (navFuel t) m') = true then
          some (getRightMostChildF t (navFuel t) m')
        else
          match getRightMostChildF t (navFuel t) m' with
          | some m => getPreviousNodeF t f v m
          | none => some none
      rw [getRightMostChildF_char t sm m' (navFuel t) hsm
        (length_preorder_subtree_le t m' sm hsm)]
      rfl

/-- The reverse skip loop finds the last valid node strictly before the
start in pre-order, or reports null at the start of the traversal. -/
theorem getPreviousNodeF_char (t : Tree) (v : Option Pos → Bool) :
    ∀ (n : Nat) (p : Pos), validPos t p → (beforeList (preorder t) p).length < n →
      getPreviousNodeF t n v p =
        some ((beforeList (preorder t) p).reverse.find? (fun q => v (some q))) := by
  intro n
  induction n with
  | zero => intro p hp hlen; omega
  | succ f ih =>
    intro p hp hlen
    rw [getPreviousNodeF_succ t f v p hp]
    cases hP : prePred t p with
    | none =>
      have h1 := prePred_eq_beforeList_getLast? t p hp
      rw [hP] at h1
      have hbl : beforeList (preorder t) p = [] := by
        cases hbl' : beforeList (preorder t) p with
        | nil => rfl
        | cons b bl =>
          rw [hbl', List.getLast?_eq_getLast _ (by simp)] at h1
          simp at h1
      rw [hbl]
      cases hvn : v none <;> simp [hvn]
    | some m =>
      obtain ⟨hmv, hsplit⟩ := prePred_some_data t p m hp hP
      rw [← hsplit, List.reverse_append]
      simp only [List.reverse_cons, List.reverse_nil, List.nil_append, List.singleton_append]
      by_cases hm : v (some m) = true
      · rw [if_pos hm, @List.find?_cons_of_pos _ (fun q => v (some q)) m _ hm]
      · rw [if_neg hm, @List.find?_cons_of_neg _ (fun q => v (some q)) m _ (by simp [hm])]
        apply ih m hmv
        have h3 := congrArg List.length hsplit
        simp only [List.length_append, List.length_cons, List.length_nil] at h3
        omega

/-- Translation of `LineCursor.prototype.validNode_`: a (non-null) node is
valid for linear navigation exactly when its type is `BLOCK` and its
location's `outputConnection` is null. -/
def validNodeB (t : Tree) : Option Pos → Bool
  | none => false
  | some p =>
    match subtreeAt t p with
    | none => false
    | some s =>
      decide ((Tree.dataOf s).type = SType.BLOCK) && !(Tree.dataOf s).hasOutputConnection

/-- Translation of `LineCursor.prototype.validInNode_`: a (non-null) node
is valid for in/out navigation exactly when its type is `FIELD`. -/
def validInNodeB (t : Tree) : Option Pos → Bool
  | none => false
  | some p =>
    match subtreeAt t p with
    | none => false
    | some s => decide ((Tree.dataOf s).type = SType.FIELD)

/-- The forward skip loop run with always-sufficient fuel. -/
def getNextNode (t : Tree) (v : Option Pos → Bool) (p : Pos) : Option Pos :=
  (getNextNodeF t (navFuel t) v p).getD none

/-- The reverse skip loop run with always-sufficient fuel. -/
def getPreviousNode (t : Tree) (v : Option Pos → Bool) (p : Pos) : Option Pos :=
  (getPreviousNodeF t (navFuel t) v p).getD none

/-- Translation of `LineCursor.prototype.next`: given the current node,
return the pair (returned node, cursor position after the call).  With no
current node the call returns null and moves nothing; otherwise the cursor
moves only when a new node was found. -/
def cursorNext (t : Tree) (cur : Option Pos) : Option Pos × Option Pos :=
  match cur with
  | none => (none, none)
  | some p =>
    match getNextNode t (validNodeB t) p with
    | some n => (some n, some n)
    | none => (none, some p)

/-- Translation of `LineCursor.prototype.in`: the next node in pre-order
that satisfies `validInNode_`. -/
def cursorIn (t : Tree) (cur : Option Pos) : Option Pos × Option Pos :=
  match cur with
  | none => (none, none)
  | some p =>
    match getNextNode t (validInNodeB t) p with
    | some n => (some n, some n)
    | none => (none, some p)

/-- Translation of `LineCursor.prototype.prev`. -/
def cursorPrev (t : Tree) (cur : Option Pos) : Option Pos × Option Pos :=
  match cur with
  | none => (none, none)
  | some p =>
    match getPreviousNode t (validNodeB t) p with
    | some n => (some n, some n)
    | none => (none, some p)

/-- Translation of `LineCursor.prototype.out`: the previous node in
pre-order that satisfies `validInNode_`. -/
def cursorOut (t : Tree) (cur : Option Pos) : Option Pos × Option Pos :=
  match cur with
  | none => (none, none)
  | some p =>
    match getPreviousNode t (validInNodeB t) p with
    | some n => (some n, some n)
    | none => (none, some p)

theorem validNodeB_none (t : Tree) : validNodeB t none = false := rfl

theorem validInNodeB_none (t : Tree) : validInNodeB t none = false := rfl

/-- The forward skip loop only ever reports nodes accepted by the
predicate (for predicates rejecting null). -/
theorem getNextNodeF_valid (t : Tree) (v : Option Pos → Bool) (hv : v none = false) :
    ∀ (n : Nat) (p : Pos) (q : Pos), getNextNodeF t n v p = some (some q) →
      v (some q) = true := by
  intro n
  induction n with
  | zero => intro p q h; simp [getNextNodeF] at h
  | succ f ih =>
    intro p q h
    rw [getNextNodeF_succ t f v p hv] at h
    cases hP : preSucc t p with
    | none => rw [hP] at h; simp at h
    | some m =>
      rw [hP] at h
      have h2 : (if v (some m) = true then some (some m) else getNextNodeF t f v m) =
          some (some q) := h
      by_cases hm : v (some m) = true
      · rw [if_pos hm] at h2
        simp only [Option.some.injEq] at h2
        rw [← h2]
        exact hm
      · rw [if_neg hm] at h2
        exact ih m q h2

/-- The reverse skip loop only ever reports nodes accepted by the
predicate. -/
theorem getPreviousNodeF_valid (t : Tree) (v : Option Pos → Bool) :
    ∀ (n : Nat) (p : Pos) (q : Pos), getPreviousNodeF t n v p = some (some q) →
      v (some q) = true := by
  intro n
  induction n with
  | zero => intro p q h; simp [getPreviousNodeF] at h
  | succ f ih =>
    intro p q h
    unfold getPreviousNodeF at h
    cases hstep : (match astPrev t p with
           | some m => (getRightMostChildF t (navFuel t) m).map some
           | none => some (astOut p)) with
    | none => rw [hstep] at h; simp at h
    | some newNode =>
      rw [hstep] at h
      cases newNode with
      | none =>
        have h2 : (if v none = true then some (none : Option Pos) else some none) =
            some (some q) := h
        by_cases hvn : v none = true
        · rw [if_pos hvn] at h2; simp at h2
        · rw [if_neg hvn] at h2; simp at h2
      | some m =>
        have h2 : (if v (some m) = true then some (some m)
            else getPreviousNodeF t f v m) = some (some q) := h
        by_cases hnn : v (some m) = true
        · rw [if_pos hnn] at h2
          simp only [Option.some.injEq] at h2
          rw [← h2]
          exact hnn
        · rw [if_neg hnn] at h2
          exact ih m q h2

/-- A visual block as consulted by the announcer: whether
`getSurroundParent()` returns a block (truthy), and its `toString()`. -/
structure SBlock where
  surroundParent : Bool
  toStr : String
deriving DecidableEq, Repr

/-- Connection type constants (`Blockly.INPUT_VALUE`,
`Blockly.NEXT_STATEMENT` and the remaining two). -/
inductive ConnKind where
  | INPUT_VALUE
  | OUTPUT_VALUE
  | NEXT_STATEMENT
  | PREVIOUS_STATEMENT
deriving DecidableEq, Repr

/-- The value of `location.type` as compared by `nodeToText_`: a block's
kind string, a connection's type constant, or undefined (for fields,
stacks and workspace coordinates). -/
inductive LocTypeVal where
  | blockKind (s : String)
  | conn (k : ConnKind)
  | undef
deriving DecidableEq, Repr

/-- An AST node as consumed by the announcer (spec section 3: a node wraps
a block, a connection, a field, a stack, or a workspace coordinate; the
source-block back-reference may be null). -/
inductive SNode where
  | block (kind : String) (blockStr : String) (sourceBlock : Option SBlock)
  | connection (nodeType : SType) (connKind : ConnKind) (sourceBlock : Option SBlock)
  | fieldNode (displayText : String) (sourceBlock : Option SBlock)
  | workspaceNode
  | stackNode
deriving DecidableEq, Repr

/-- The node's `getType()`. -/
def SNode.getType : SNode → SType
  | .block .. => SType.BLOCK
  | .connection t _ _ => t
  | .fieldNode .. => SType.FIELD
  | .workspaceNode => SType.WORKSPACE
  | .stackNode => SType.STACK

/-- The node's `getLocation().type`. -/
def SNode.locType : SNode → LocTypeVal
  | .block k _ _ => LocTypeVal.blockKind k
  | .connection _ k _ => LocTypeVal.conn k
  | _ => LocTypeVal.undef

/-- The node's `getSourceBlock()`, null for workspace and stack nodes. -/
def SNode.getSourceBlock : SNode → Option SBlock
  | .block _ _ sb => sb
  | .connection _ _ sb => sb
  | .fieldNode _ sb => sb
  | _ => none

/-- The location's `toString()` (consulted only for block locations). -/
def SNode.locToString : SNode → String
  | .block _ s _ => s
  | _ => ""

/-- The field's `getDisplayText_()` (consulted only for fields). -/
def SNode.locDisplayText : SNode → String
  | .fieldNode s _ => s
  | _ => ""

/-- Translation of `Blockly.Speaker.prototype.nodeToText_`.  The
JavaScript dereferences `getSourceBlock()` without a null check; those
dereferences are modelled in the `Option` monad, a `none` result being a
null-dereference crash. -/
def nodeToText (oldNode : Option SNode) (curNode : SNode) : Option String :=
  if curNode.getType = SType.BLOCK then
    if curNode.locType = LocTypeVal.blockKind "controls_if" then
      some "if 6 = 5"
    else
      match curNode.getSourceBlock with
      | none => none
      | some sb =>
        match (if sb.surroundParent then some "inside if. "
               else
                 match oldNode with
                 | some old =>
                   match old.getSourceBlock with
                   | none => none
                   | some osb => some (if osb.surroundParent then "outside if. " else "")
                 | none => some "") with
        | none => none
        | some t1 => some (t1 ++ curNode.locToString)
  else if curNode.getType = SType.OUTPUT then
    (curNode.getSourceBlock).map (fun sb => sb.toStr)
  else if curNode.locType = LocTypeVal.conn ConnKind.INPUT_VALUE then
    (curNode.getSourceBlock).map (fun sb => " an input value for block " ++ sb.toStr)
  else if curNode.locType = LocTypeVal.conn ConnKind.NEXT_STATEMENT then
    (curNode.getSourceBlock).map (fun sb => " a next connection for block " ++ sb.toStr)
  else if curNode.getType = SType.PREVIOUS then
    (curNode.getSourceBlock).map (fun sb => " a previous connection for block " ++ sb.toStr)
  else if curNode.getType = SType.FIELD then
    some (curNode.locDisplayText ++ " ")
  else if curNode.getType = SType.WORKSPACE then
    some " a workspace coordinate"
  else if curNode.getType = SType.STACK then
    some " a stack of blocks"
  else
    some ""

def fieldData : NodeData := { type := SType.FIELD, hasOutputConnection := false }

def stmtData : NodeData := { type := SType.BLOCK, hasOutputConnection := false }

def valueData : NodeData := { type := SType.BLOCK, hasOutputConnection := true }

def stackData : NodeData := { type := SType.STACK, hasOutputConnection := false }

/-- A small demonstration tree: a stack containing a statement block (with
a field and a nested value block holding a field) followed by a second
statement block.  Its pre-order positions are
`[], [0], [0,0], [0,1], [0,1,0], [1]`. -/
def demoTree : Tree :=
  Tree.node stackData
    [Tree.node stmtData
      [Tree.node fieldData [], Tree.node valueData [Tree.node fieldData []]],
     Tree.node stmtData []]

theorem getNextNode_char (t : Tree) (v : Option Pos → Bool) (hv : v none = false)
    (p : Pos) (hp : validPos t p) :
    getNextNode t v p = (afterList (preorder t) p).find? (fun q => v (some q)) := by
  unfold getNextNode
  rw [getNextNodeF_char t v hv (navFuel t) p hp
    (afterList_length_lt _ _ (mem_preorder_of_validPos t p hp))]
  rfl

theorem getPreviousNode_char (t : Tree) (v : Option Pos → Bool)
    (p : Pos) (hp : validPos t p) :
    getPreviousNode t v p =
      (beforeList (preorder t) p).reverse.find? (fun q => v (some q)) := by
  unfold getPreviousNode
  rw [getPreviousNodeF_char t v (navFuel t) p hp
    (beforeList_length_lt _ _ (mem_preorder_of_validPos t p hp))]
  rfl

theorem getNextNode_some_valid (t : Tree) (v : Option Pos → Bool)
    (hv : v none = false) (p n : Pos) (h : getNextNode t v p = some n) :
    v (some n) = true := by
  unfold getNextNode at h
  cases hF : getNextNodeF t (navFuel t) v p with
  | none => rw [hF] at h; simp at h
  | some r =>
    rw [hF] at h
    rw [Option.getD_some] at h
    subst h
    exact getNextNodeF_valid t v hv (navFuel t) p n hF

theorem getPreviousNode_some_valid (t : Tree) (v : Option Pos → Bool)
    (p n : Pos) (h : getPreviousNode t v p = some n) : v (some n) = true := by
  unfold getPreviousNode at h
  cases hF : getPreviousNodeF t (navFuel t) v p with
  | none => rw [hF] at h; simp at h
  | some r =>
    rw [hF] at h
    rw [Option.getD_some] at h
    subst h
    exact getPreviousNodeF_valid t v (navFuel t) p n hF

theorem cursorNext_some (t : Tree) (p : Pos) :
    cursorNext t (some p) =
      (match getNextNode t (validNodeB t) p with
       | some n => (some n, some n)
       | none => (none, some p)) := rfl

theorem cursorPrev_some (t : Tree) (p : Pos) :
    cursorPrev t (some p) =
      (match getPreviousNode t (validNodeB t) p with
       | some n => (some n, some n)
       | none => (none, some p)) := rfl

theorem cursorIn_some (t : Tree) (p : Pos) :
    cursorIn t (some p) =
      (match getNextNode t (validInNodeB t) p with
       | some n => (some n, some n)
       | none => (none, some p)) := rfl

theorem cursorOut_some (t : Tree) (p : Pos) :
    cursorOut t (some p) =
      (match getPreviousNode t (validInNodeB t) p with
       | some n => (some n, some n)
       | none => (none, some p)) := rfl

/-- C1: `next()` returns the first node strictly after the cursor in
pre-order that `validNode_` accepts (type `BLOCK`, output connection
null), and `prev()` the last such node strictly before it; a returned
node always satisfies `validNode_` and becomes the new cursor position,
and when no qualifying node lies ahead (behind) the call returns null and
leaves `curNode` unchanged. -/
theorem C1_linear_nav (t : Tree) (p : Pos) (h : validPos t p) :
    (cursorNext t (some p)).1 =
      (afterList (preorder t) p).find? (fun q => validNodeB t (some q)) ∧
    (cursorPrev t (some p)).1 =
      (beforeList (preorder t) p).reverse.find? (fun q => validNodeB t (some q)) ∧
    (∀ n, (cursorNext t (some p)).1 = some n →
      validNodeB t (some n) = true ∧ (cursorNext t (some p)).2 = some n) ∧
    (∀ n, (cursorPrev t (some p)).1 = some n →
      validNodeB t (some n) = true ∧ (cursorPrev t (some p)).2 = some n) ∧
    ((∀ q ∈ afterList (preorder t) p, validNodeB t (some q) = false) →
      cursorNext t (some p) = (none, some p)) ∧
    ((∀ q ∈ beforeList (preorder t) p, validNodeB t (some q) = false) →
      cursorPrev t (some p) = (none, some p)) := by
  have hN := getNextNode_char t (validNodeB t) rfl p h
  have hP := getPreviousNode_char t (validNodeB t) p h
  refine ⟨?_, ?_, ?_, ?_, ?_, ?_⟩
  · rw [cursorNext_some]
    cases hg : getNextNode t (validNodeB t) p with
    | none => rw [hg] at hN; exact hN
    | some n => rw [hg] at hN; exact hN
  · rw [cursorPrev_some]
    cases hg : getPreviousNode t (validNodeB t) p with
    | none => rw [hg] at hP; exact hP
    | some n => rw [hg] at hP; exact hP
  · intro n hn
    rw [cursorNext_some] at hn ⊢
    cases hg : getNextNode t (validNodeB t) p with
    | none => rw [hg] at hn; simp at hn
    | some m =>
      rw [hg] at hn
      have hmn : m = n := by simpa using hn
      subst hmn
      exact ⟨getNextNode_some_valid t (validNodeB t) rfl p m hg, rfl⟩
  · intro n hn
    rw [cursorPrev_some] at hn ⊢
    cases hg : getPreviousNode t (validNodeB t) p with
    | none => rw [hg] at hn; simp at hn
    | some m =>
      rw [hg] at hn
      have hmn : m = n := by simpa using hn
      subst hmn
      exact ⟨getPreviousNode_some_valid t (validNodeB t) p m hg, rfl⟩
  · intro hall
    have hfind : (afterList (preorder t) p).find? (fun q => validNodeB t (some q)) = none :=
      List.find?_eq_none.2 (fun x hx => by rw [hall x hx]; simp)
    have hg : getNextNode t (validNodeB t) p = none := by rw [hN, hfind]
    rw [cursorNext_some, hg]
  · intro hall
    have hfind : ((beforeList (preorder t) p).reverse.find?
        (fun q => validNodeB t (some q))) = none :=
      List.find?_eq_none.2 (fun x hx => by
        rw [hall x (List.mem_reverse.1 hx)]; simp)
    have hg : getPreviousNode t (validNodeB t) p = none := by rw [hP, hfind]
    rw [cursorPrev_some, hg]

/-- C2: the forward traversal's raw step is `node.in()` if present, else
`node.next()`, else the ascent `findSiblingOrParent_(node.out())`; this
step computes exactly the immediate pre-order successor, and the skip
loop continues the same step from nodes failing the validity predicate,
yielding null once the ascent exhausts the root. -/
theorem C2_forward_step (t : Tree) (p : Pos) (f : Nat) (v : Option Pos → Bool)
    (h : validPos t p) (hv : v none = false) :
    preSucc t p = (match astIn t p with
      | some m => some m
      | none => match astNext t p with
        | some m => some m
        | none => findSiblingOrParent t (astOut p)) ∧
    preSucc t p = (afterList (preorder t) p).head? ∧
    getNextNodeF t (f + 1) v p =
      (match preSucc t p with
       | none => some none
       | some m => if v (some m) then some (some m) else getNextNodeF t f v m) :=
  ⟨rfl, preSucc_eq_afterList_head? t p h, getNextNodeF_succ t f v p hv⟩

/-- C3: the reverse traversal's raw step is the right-most deepest child
of `node.prev()` when a preceding sibling exists (computed by descending
to the first child and following `next()` to the last sibling at each
level, which lands on the pre-order-last node of that subtree) and
`node.out()` otherwise; this step computes exactly the immediate
pre-order predecessor, the skip loop repeats it from invalid nodes, and
it yields null when no predecessor remains. -/
theorem C3_reverse_step (t : Tree) (p : Pos) (f : Nat) (v : Option Pos → Bool)
    (h : validPos t p) :
    prePred t p = (match astPrev t p with
      | some m => getRightMostChildF t (navFuel t) m
      | none => astOut p) ∧
    (∀ (m : Pos) (s : Tree), subtreeAt t m = some s →
      getRightMostChildF t (navFuel t) m = some (m ++ lastPath s) ∧
      (preorder s).getLast? = some (lastPath s)) ∧
    prePred t p = (beforeList (preorder t) p).getLast? ∧
    getPreviousNodeF t (f + 1) v p =
      (if v (prePred t p) then some (prePred t p)
       else match prePred t p with
         | some m => getPreviousNodeF t f v m
         | none => some none) :=
  ⟨rfl,
   fun m s hs => ⟨getRightMostChildF_char t s m (navFuel t) hs
      (length_preorder_subtree_le t m s hs), getLast?_preorder s⟩,
   prePred_eq_beforeList_getLast? t p h,
   getPreviousNodeF_succ t f v p h⟩

/-- C4: `in()` returns the first node strictly after the cursor in
pre-order accepted by `validInNode_` (type `FIELD`), moving to it, with no
movement when none exists; `out()` only ever lands on a `FIELD` node that
lies strictly before the cursor in pre-order. -/
theorem C4_in_out (t : Tree) (p : Pos) (h : validPos t p) :
    (cursorIn t (some p)).1 =
      (afterList (preorder t) p).find? (fun q => validInNodeB t (some q)) ∧
    (∀ n, (cursorIn t (some p)).1 = some n →
      validInNodeB t (some n) = true ∧ (cursorIn t (some p)).2 = some n) ∧
    ((cursorIn t (some p)).1 = none → cursorIn t (some p) = (none, some p)) ∧
    (∀ n, (cursorOut t (some p)).1 = some n →
      validInNodeB t (some n) = true ∧ n ∈ beforeList (preorder t) p) ∧
    (∀ n, validInNodeB t (some n) = true →
      ∃ s, subtreeAt t n = some s ∧ (Tree.dataOf s).type = SType.FIELD) := by
  have hN := getNextNode_char t (validInNodeB t) rfl p h
  have hP := getPreviousNode_char t (validInNodeB t) p h
  refine ⟨?_, ?_, ?_, ?_, ?_⟩
  · rw [cursorIn_some]
    cases hg : getNextNode t (validInNodeB t) p with
    | none => rw [hg] at hN; exact hN
    | some n => rw [hg] at hN; exact hN
  · intro n hn
    rw [cursorIn_some] at hn ⊢
    cases hg : getNextNode t (validInNodeB t) p with
    | none => rw [hg] at hn; simp at hn
    | some m =>
      rw [hg] at hn
      have hmn : m = n := by simpa using hn
      subst hmn
      exact ⟨getNextNode_some_valid t (validInNodeB t) rfl p m hg, rfl⟩
  · intro hn
    rw [cursorIn_some] at hn ⊢
    cases hg : getNextNode t (validInNodeB t) p with
    | none => rfl
    | some m => rw [hg] at hn; simp at hn
  · intro n hn
    rw [cursorOut_some] at hn
    cases hg : getPreviousNode t (validInNodeB t) p with
    | none => rw [hg] at hn; simp at hn
    | some m =>
      rw [hg] at hn
      have hmn : m = n := by simpa using hn
      subst hmn
      refine ⟨getPreviousNode_some_valid t (validInNodeB t) p m hg, ?_⟩
      rw [hP] at hg
      exact List.mem_reverse.1 (List.mem_of_find?_eq_some hg)
  · intro n hn
    have hn2 : (match subtreeAt t n with
        | none => false
        | some s => decide ((Tree.dataOf s).type = SType.FIELD)) = true := hn
    cases hs : subtreeAt t n with
    | none => rw [hs] at hn2; simp at hn2
    | some s =>
      rw [hs] at hn2
      exact ⟨s, rfl, of_decide_eq_true hn2⟩

/-- C5: after any of the four navigation calls the cursor position is
either exactly what it was before the call or a node satisfying that
operation's validity predicate (`validNode_` for next/prev, `validInNode_`
for in/out). -/
theorem C5_invariant (t : Tree) (cur : Option Pos) :
    ((cursorNext t cur).2 = cur ∨
      ∃ n, (cursorNext t cur).2 = some n ∧ validNodeB t (some n) = true) ∧
    ((cursorPrev t cur).2 = cur ∨
      ∃ n, (cursorPrev t cur).2 = some n ∧ validNodeB t (some n) = true) ∧
    ((cursorIn t cur).2 = cur ∨
      ∃ n, (cursorIn t cur).2 = some n ∧ validInNodeB t (some n) = true) ∧
    ((cursorOut t cur).2 = cur ∨
      ∃ n, (cursorOut t cur).2 = some n ∧ validInNodeB t (some n) = true) := by
  cases cur with
  | none => exact ⟨Or.inl rfl, Or.inl rfl, Or.inl rfl, Or.inl rfl⟩
  | some p =>
    refine ⟨?_, ?_, ?_, ?_⟩
    · rw [cursorNext_some]
      cases hg : getNextNode t (validNodeB t) p with
      | none => exact Or.inl rfl
      | some n =>
        exact Or.inr ⟨n, rfl, getNextNode_some_valid t (validNodeB t) rfl p n hg⟩
    · rw [cursorPrev_some]
      cases hg : getPreviousNode t (validNodeB t) p with
      | none => exact Or.inl rfl
      | some n =>
        exact Or.inr ⟨n, rfl, getPreviousNode_some_valid t (validNodeB t) p n hg⟩
    · rw [cursorIn_some]
      cases hg : getNextNode t (validInNodeB t) p with
      | none => exact Or.inl rfl
      | some n =>
        exact Or.inr ⟨n, rfl, getNextNode_some_valid t (validInNodeB t) rfl p n hg⟩
    · rw [cursorOut_some]
      cases hg : getPreviousNode t (validInNodeB t) p with
      | none => exact Or.inl rfl
      | some n =>
        exact Or.inr ⟨n, rfl, getPreviousNode_some_valid t (validInNodeB t) p n hg⟩

/-- C6: each of the four navigation operations, invoked with no current
node, returns null and performs no mutation; this is the documented no-op
result, not an error. -/
theorem C6_unset_noop (t : Tree) :
    cursorNext t none = (none, none) ∧ cursorPrev t none = (none, none) ∧
    cursorIn t none = (none, none) ∧ cursorOut t none = (none, none) :=
  ⟨rfl, rfl, rfl, rfl⟩

/-- C7: on every finite tree the fueled embeddings of the recursive walks
complete within `navFuel` steps from any valid position: the skip loops
never exhaust their fuel and halt either with null at a tree boundary or
at a node accepted by the predicate, and `getRightMostChild_` reaches the
right-most deepest descendant.  (`findSiblingOrParent_` and the
descent in `lastPath` are defined by recursion that Lean proves
well-founded outright.) -/
theorem C7_termination (t : Tree) (p : Pos) (v : Option Pos → Bool)
    (h : validPos t p) (hv : v none = false) :
    (getNextNodeF t (navFuel t) v p).isSome = true ∧
    (getPreviousNodeF t (navFuel t) v p).isSome = true ∧
    (getNextNodeF t (navFuel t) v p = some none ∨
      ∃ n, getNextNodeF t (navFuel t) v p = some (some n) ∧ v (some n) = true) ∧
    (getPreviousNodeF t (navFuel t) v p = some none ∨
      ∃ n, getPreviousNodeF t (navFuel t) v p = some (some n) ∧ v (some n) = true) ∧
    (∀ s, subtreeAt t p = some s →
      getRightMostChildF t (navFuel t) p = some (p ++ lastPath s)) := by
  have hN := getNextNodeF_char t v hv (navFuel t) p h
    (afterList_length_lt _ _ (mem_preorder_of_validPos t p h))
  have hP := getPreviousNodeF_char t v (navFuel t) p h
    (beforeList_length_lt _ _ (mem_preorder_of_validPos t p h))
  refine ⟨by rw [hN]; rfl, by rw [hP]; rfl, ?_, ?_, ?_⟩
  · cases hf : (afterList (preorder t) p).find? (fun q => v (some q)) with
    | none => left; rw [hN, hf]
    | some n =>
      right
      exact ⟨n, by rw [hN, hf], by simpa using List.find?_some hf⟩
  · cases hf : (beforeList (preorder t) p).reverse.find? (fun q => v (some q)) with
    | none => left; rw [hP, hf]
    | some n =>
      right
      exact ⟨n, by rw [hP, hf], by simpa using List.find?_some hf⟩
  · intro s hs
    exact getRightMostChildF_char t s p (navFuel t) hs
      (length_preorder_subtree_le t p s hs)

/-- C8 counterexample: `describe` on a `WORKSPACE` node does not return
the exact literal "a workspace coordinate"; the source appends the
literal `' a workspace coordinate'`, which carries a leading space. -/
theorem C8_counterexample :
    nodeToText none SNode.workspaceNode ≠ some "a workspace coordinate" ∧
    nodeToText none SNode.workspaceNode = some " a workspace coordinate" := by
  exact ⟨by decide, rfl⟩

/-- C8 (amended): for every old node, `describe` on a current node of type
`WORKSPACE` returns exactly the literal string " a workspace coordinate",
with one leading space. -/
theorem C8_workspace (oldNode : Option SNode) :
    nodeToText oldNode SNode.workspaceNode = some " a workspace coordinate" := rfl

/-- C9: for every old node and every `BLOCK` current node whose location
is a `controls_if` block, `describe` returns exactly the fixed phrase
"if 6 = 5", independent of the block's contents, its string form, and its
source-block back-reference. -/
theorem C9_controls_if (oldNode : Option SNode) (blockStr : String)
    (sourceBlock : Option SBlock) :
    nodeToText oldNode (SNode.block "controls_if" blockStr sourceBlock) =
      some "if 6 = 5" := by
  have h1 : (SNode.block "controls_if" blockStr sourceBlock).getType = SType.BLOCK := rfl
  have h2 : (SNode.block "controls_if" blockStr sourceBlock).locType =
      LocTypeVal.blockKind "controls_if" := rfl
  unfold nodeToText
  rw [if_pos h1, if_pos h2]

/-- C10: `nodeToText_` dereferences `getSourceBlock()` without a null
check; whenever (a) the current node's source block is non-null in the
branches that read it — a non-conditional `BLOCK`, an `OUTPUT` or
`PREVIOUS` node, or a node whose location is an input-value or
next-statement connection — and (b) for a non-nested `BLOCK` current node
with an old node present, the old node's source block is non-null too,
the function is total (no null dereference). -/
theorem C10_no_null_deref (oldNode : Option SNode) (curNode : SNode)
    (h1 : ((curNode.getType = SType.BLOCK ∧
        curNode.locType ≠ LocTypeVal.blockKind "controls_if") ∨
        curNode.getType = SType.OUTPUT ∨ curNode.getType = SType.PREVIOUS ∨
        curNode.locType = LocTypeVal.conn ConnKind.INPUT_VALUE ∨
        curNode.locType = LocTypeVal.conn ConnKind.NEXT_STATEMENT) →
        curNode.getSourceBlock.isSome = true)
    (h2 : ∀ sb old, curNode.getType = SType.BLOCK →
        curNode.locType ≠ LocTypeVal.blockKind "controls_if" →
        curNode.getSourceBlock = some sb → sb.surroundParent = false →
        oldNode = some old → old.getSourceBlock.isSome = true) :
    (nodeToText oldNode curNode).isSome = true := by
  unfold nodeToText
  by_cases hb : curNode.getType = SType.BLOCK
  · rw [if_pos hb]
    by_cases hk : curNode.locType = LocTypeVal.blockKind "controls_if"
    · rw [if_pos hk]; rfl
    · rw [if_neg hk]
      have hsb := h1 (Or.inl ⟨hb, hk⟩)
      cases hsb' : curNode.getSourceBlock with
      | none => rw [hsb'] at hsb; simp at hsb
      | some sb =>
        cases hsp : sb.surroundParent with
        | true => simp [hsp]
        | false =>
          cases oldNode with
          | none => simp [hsp]
          | some old =>
            have hosb := h2 sb old hb hk hsb' hsp rfl
            cases hosb' : old.getSourceBlock with
            | none => rw [hosb'] at hosb; simp at hosb
            | some osb => simp [hsp, hosb']
  · rw [if_neg hb]
    by_cases ho : curNode.getType = SType.OUTPUT
    · rw [if_pos ho]
      have hsb := h1 (Or.inr (Or.inl ho))
      cases hsb' : curNode.getSourceBlock with
      | none => rw [hsb'] at hsb; simp at hsb
      | some sb => simp
    · rw [if_neg ho]
      by_cases hiv : curNode.locType = LocTypeVal.conn ConnKind.INPUT_VALUE
      · rw [if_pos hiv]
        have hsb := h1 (Or.inr (Or.inr (Or.inr (Or.inl hiv))))
        cases hsb' : curNode.getSourceBlock with
        | none => rw [hsb'] at hsb; simp at hsb
        | some sb => simp
      · rw [if_neg hiv]
        by_cases hns : curNode.locType = LocTypeVal.conn ConnKind.NEXT_STATEMENT
        · rw [if_pos hns]
          have hsb := h1 (Or.inr (Or.inr (Or.inr (Or.inr hns))))
          cases hsb' : curNode.getSourceBlock with
          | none => rw [hsb'] at hsb; simp at hsb
          | some sb => simp
        · rw [if_neg hns]
          by_cases hpv : curNode.getType = SType.PREVIOUS
          · rw [if_pos hpv]
            have hsb := h1 (Or.inr (Or.inr (Or.inl hpv)))
            cases hsb' : curNode.getSourceBlock with
            | none => rw [hsb'] at hsb; simp at hsb
            | some sb => simp
          · rw [if_neg hpv]
            by_cases hf : curNode.getType = SType.FIELD
            · rw [if_pos hf]; rfl
            · rw [if_neg hf]
              by_cases hw : curNode.getType = SType.WORKSPACE
              · rw [if_pos hw]; rfl
              · rw [if_neg hw]
                by_cases hst : curNode.getType = SType.STACK
                · rw [if_pos hst]; rfl
                · rw [if_neg hst]; rfl

/-- Concrete instance of C1 on the demonstration tree. -/
theorem C1_witness :
    validPos demoTree [0] ∧
    (cursorNext demoTree (some [0])).1 =
      (afterList (preorder demoTree) [0]).find?
        (fun q => validNodeB demoTree (some q)) :=
  ⟨by decide, (C1_linear_nav demoTree [0] (by decide)).1⟩

/-- Concrete instance of C2 on the demonstration tree. -/
theorem C2_witness :
    validPos demoTree [0] ∧ validNodeB demoTree none = false ∧
    preSucc demoTree [0] = (afterList (preorder demoTree) [0]).head? :=
  ⟨by decide, rfl,
   (C2_forward_step demoTree [0] 0 (validNodeB demoTree) (by decide) rfl).2.1⟩

/-- Concrete instance of C3 on the demonstration tree. -/
theorem C3_witness :
    validPos demoTree [1] ∧
    prePred demoTree [1] = (beforeList (preorder demoTree) [1]).getLast? :=
  ⟨by decide,
   (C3_reverse_step demoTree [1] 0 (validNodeB demoTree) (by decide)).2.2.1⟩

/-- Concrete instance of C4 on the demonstration tree. -/
theorem C4_witness :
    validPos demoTree [0] ∧
    (cursorIn demoTree (some [0])).1 =
      (afterList (preorder demoTree) [0]).find?
        (fun q => validInNodeB demoTree (some q)) :=
  ⟨by decide, (C4_in_out demoTree [0] (by decide)).1⟩

/-- Concrete instance of C7 on the demonstration tree. -/
theorem C7_witness :
    validPos demoTree [0] ∧ validNodeB demoTree none = false ∧
    (getNextNodeF demoTree (navFuel demoTree)
      (validNodeB demoTree) [0]).isSome = true :=
  ⟨by decide, rfl,
   (C7_termination demoTree [0] (validNodeB demoTree) (by decide) rfl).1⟩

/-- A non-nested print block with its source-block reference present. -/
def demoCurBlock : SNode :=
  SNode.block "text_print" "print hello"
    (some { surroundParent := false, toStr := "print hello" })

/-- An old node whose source-block reference is present. -/
def demoOldNode : SNode :=
  SNode.block "controls_repeat" "repeat"
    (some { surroundParent := true, toStr := "repeat" })

/-- Concrete instance of C10: a non-conditional block with both source
blocks present is described without a null dereference. -/
theorem C10_witness :
    (nodeToText (some demoOldNode) demoCurBlock).isSome = true :=
  C10_no_null_deref (some demoOldNode) demoCurBlock
    (fun _ => rfl)
    (fun _ _ _ _ _ _ h5 => by cases h5; rfl)

end Blockly
